import Mathlib

/-!
Verification of the graphrag-hybrid retrieval engine.

This file gives a shallow embedding of the algorithmic core of the
repository and proves (or refutes) the frozen specification claims
about it:

* `src/processors/document_processor.py` — `DocumentProcessor._chunk_text`
  (text chunking with boundary snapping), embedded as `chunk_text`.
* `src/query_engine.py` — `QueryEngine.semantic_search`,
  `QueryEngine.hybrid_search`, `QueryEngine.expand_context`.
* `src/database/neo4j_manager.py` — `Neo4jManager.get_chunk_context`.
* `src/database/qdrant_manager.py` — `QdrantManager.get_statistics`.

Texts are embedded as `List Char`; Python string slicing and
`str.find` keep Python's negative-index slice semantics.  Scores are
embedded as `ℚ` (the code computes the same arithmetic expressions on
floats; the claims under examination only involve the identities and
comparisons between those expressions, which are preserved).  External
stores (Neo4j, Qdrant) are embedded as explicit environments of
functions; exceptions are embedded with `Except` and callers' blanket
`try/except` handlers as the corresponding case analysis.
-/

/-! ### Python string primitives -/

/-- Python slice-index semantics: a negative index counts from the end
(clamped at 0), a positive one is clamped at `len`. -/
def sliceIdx (len : Nat) (i : Int) : Nat :=
  if i < 0 then ((len : Int) + i).toNat else min i.toNat len

/-- Python `text[a:b]` on a `List Char`. -/
def pySlice (text : List Char) (a b : Int) : List Char :=
  (text.take (sliceIdx text.length b)).drop (sliceIdx text.length a)

/-- Does `sub` occur in `text` starting exactly at index `i`? -/
def matchAt (text sub : List Char) (i : Nat) : Bool :=
  ((text.drop i).take sub.length) == sub

/-- Scan `n` candidate start indices upward from `lo` for an occurrence
of `sub` (helper for `pyFind`). -/
def scanFind (text sub : List Char) : Nat → Nat → Option Nat
  | _, 0 => none
  | lo, n + 1 => if matchAt text sub lo then some lo else scanFind text sub (lo + 1) n

/-- Python `text.find(sub, a, b)`: smallest index of an occurrence of
`sub` lying entirely inside the slice `text[a:b]`, with Python's
negative-index handling of `a` and `b`; `none` for Python's `-1`. -/
def pyFind (text sub : List Char) (a b : Int) : Option Nat :=
  let lo := sliceIdx text.length a
  let hi := sliceIdx text.length b
  scanFind text sub lo (hi + 1 - sub.length - lo)

/-- Python `str.isspace` / `\s` on the ASCII whitespace characters the
chunker's inputs contain. -/
def isPySpace (c : Char) : Bool :=
  c == ' ' || c == '\t' || c == '\n' || c == '\x0b' || c == '\x0c' || c == '\r'

/-- Python `str.strip()`. -/
def pyStrip (s : List Char) : List Char :=
  ((s.dropWhile isPySpace).reverse.dropWhile isPySpace).reverse

/-- Length of the maximal whitespace run at the head of `l` (the greedy
`\s+` of the sentence-boundary regex). -/
def wsRun (l : List Char) : Nat := (l.takeWhile isPySpace).length

/-- The regex class `[.!?]`. -/
def isSentPunct (c : Char) : Bool := c == '.' || c == '!' || c == '?'

/-- `re.search(r'[.!?]\s+', w)`: leftmost match, returning `m.end()`
(index just past the greedy whitespace run), scanning from index `j`. -/
def sentAux : List Char → Nat → Option Nat
  | c :: d :: rest, j =>
    if isSentPunct c && isPySpace d then some (j + 1 + wsRun (d :: rest))
    else sentAux (d :: rest) (j + 1)
  | _, _ => none

/-! ### The chunker (`DocumentProcessor._chunk_text`, document_processor.py lines 108-138) -/

/-- One iteration's chosen end offset: propose `start + chunk_size`
clamped to the text length; if that is not the text end, snap to a
paragraph boundary (`text.find('\n\n', end-100, end+100)`, then
`boundary + 2`), else to a sentence boundary
(`re.search(r'[.!?]\s+', text[end-50:end+50])`, then
`end - 50 + m.end()`), else keep the proposal.  The result is an `Int`
because the sentence adjustment is computed with Python int
arithmetic. -/
def computeEnd (text : List Char) (cs start : Nat) : Int :=
  let len := text.length
  let e0 := min (start + cs) len
  if e0 < len then
    match pyFind text ['\n', '\n'] ((e0 : Int) - 100) ((e0 : Int) + 100) with
    | some pb => ((pb + 2 : Nat) : Int)
    | none =>
      match sentAux (pySlice text ((e0 : Int) - 50) ((e0 : Int) + 50)) 0 with
      | some mEnd => (e0 : Int) - 50 + mEnd
      | none => (e0 : Int)
  else (e0 : Int)

/-- The advance rule `start = max(end - overlap, start + 1)`
(document_processor.py line 136). -/
def nextStart (e : Int) (ov start : Nat) : Nat :=
  (max (e - (ov : Int)) ((start : Int) + 1)).toNat

/-- The chunking loop.  `fuel` is an upper bound on the remaining
iterations (the loop strictly increases `start` each time, so
`text.length` steps always suffice; see `chunkLoop_fuel_irrelevant`). -/
def chunkLoop (text : List Char) (cs ov : Nat) : Nat → Nat → List (List Char)
  | 0, _ => []
  | fuel + 1, start =>
    if start < text.length then
      let e := computeEnd text cs start
      let chunk := pyStrip (pySlice text (start : Int) e)
      let rest := chunkLoop text cs ov fuel (nextStart e ov start)
      if chunk = [] then rest else chunk :: rest
    else []

/-- `DocumentProcessor._chunk_text(text)` with `chunk_size = cs` and
`chunk_overlap = ov`. -/
def chunk_text (text : List Char) (cs ov : Nat) : List (List Char) :=
  chunkLoop text cs ov text.length 0

/-! ### Dictionaries and the graph/vector store environments -/

/-- A Python dict with string values, as produced by the Neo4j driver's
`dict(record[...])` conversions. -/
abbrev Payload := List (String × String)

/-- Python `d.get(k)`: `none` for a missing key. -/
def pgetOpt (p : Payload) (k : String) : Option String :=
  (p.find? (fun kv => kv.1 == k)).map (fun kv => kv.2)

/-- Python `d.get(k, default)`. -/
def pget (p : Payload) (k : String) (d : String) : String :=
  (pgetOpt p k).getD d

/-- Shape of the dict `Neo4jManager.get_chunk_context` would build from
a successful query (neo4j_manager.py lines 266-271): the center chunk
node and the collected `NEXT`-chain neighbours on both sides.  The
method never actually produces it — see `neo4j_get_chunk_context`. -/
structure CtxResult where
  center : Payload
  previous : List Payload
  next : List Payload
deriving DecidableEq

/-- The graph store consumed by the query engine, abstracted as lookup
functions: chunk nodes by id, document lookups, `RELATED_TO` neighbours
with a limit, and a document's chunks ordered by position (the outputs
of the corresponding `Neo4jManager` query methods). -/
structure GraphDB where
  chunkOf : String → Option Payload
  docById : String → Option Payload
  docByChunk : String → Option Payload
  docByMap : Payload → Option Payload
  relatedOf : String → Nat → List Payload
  chunksOf : String → List Payload

/-- `Neo4jManager.get_chunk_context(chunk_id, context_size)`
(neo4j_manager.py lines 254-276).  The Cypher it sends is a plain (not
an f-) triple-quoted string, so the variable-length bounds read
literally `[:NEXT*1..` followed by the text `context_size` in braces:
Cypher accepts only an integer literal there — a parameter is not
allowed in a variable-length bound, and the old brace parameter syntax
was removed in Neo4j 4.0 — so `session.run` raises a syntax error for
every input, the blanket `except` logs it, and the method returns
`None` unconditionally. -/
def neo4j_get_chunk_context (_g : GraphDB) (_cid : String) (_k : Nat) : Option CtxResult :=
  none

/-- Result of `QueryEngine.expand_context`; `document` is present only
when the attach step stored one. -/
structure ExpandResult where
  center : Payload
  previous : List Payload
  next : List Payload
  document : Option Payload
deriving DecidableEq

/-- `QueryEngine.expand_context(chunk_id, context_size)`
(query_engine.py lines 194-218): `none` models the `return {}` taken
when no context was found.  Because `get_chunk_context` returns `None`
for every input, this path is always taken; the rest of the body is
kept for structural fidelity with the source.  The document-attach
step mirrors the code: it runs only when the center dict is truthy,
looks the parent document up by chunk id, and (if that dict is truthy)
passes the whole dict to `get_document_by_id` (`docByMap`), attaching
the result if truthy. -/
def expand_context (g : GraphDB) (cid : String) (k : Nat) : Option ExpandResult :=
  match neo4j_get_chunk_context g cid k with
  | none => none
  | some ctx =>
    let doc : Option Payload :=
      if ctx.center ≠ [] then
        match g.docByChunk cid with
        | none => none
        | some dd =>
          if dd ≠ [] then
            match g.docByMap dd with
            | none => none
            | some dinfo => if dinfo ≠ [] then some dinfo else none
          else none
      else none
    some ⟨ctx.center, ctx.previous, ctx.next, doc⟩

/-- One scored record of `QdrantManager.search` (qdrant_manager.py lines
188-232), after the enrichment performed by `semantic_search`:
`document` and `context` are the values `sem_result.get('document', {})`
and `sem_result.get('context', {})` read later by `hybrid_search` (the
empty dict is `[]` / `none`). -/
structure SemResult where
  id : String
  score : ℚ
  text : String
  doc_id : String
  position : Int
  document : Payload
  context : Option (List String × List String)
deriving DecidableEq

/-- The engine's environment: whether an embedding processor is
configured, the outcome of the Qdrant vector search (`Except` models a
raised exception, caught by the caller's blanket handler), and the
graph store. -/
structure Env where
  embedding_processor : Bool
  qdrantSearch : String → Nat → Option Payload → Except String (List SemResult)
  graph : GraphDB

/-- `filter_conditions` setup of `semantic_search` (query_engine.py
lines 38-40): only a truthy category produces a filter. -/
def filter_conditions (category : Option String) : Option Payload :=
  match category with
  | some c => if c = "" then none else some [("category", c)]
  | none => none

/-- The per-result enrichment loop of `semantic_search` (query_engine.py
lines 56-71): attach the owning document when found and truthy, and the
one-hop context texts when a chunk context exists (since
`get_chunk_context` always returns `None`, the context branch never
fires; it is kept for structural fidelity with the source). -/
def enhance (g : GraphDB) (r : SemResult) : SemResult :=
  let r1 :=
    match g.docById r.doc_id with
    | none => r
    | some d => if d = [] then r else { r with document := d }
  match neo4j_get_chunk_context g r.id 1 with
  | none => r1
  | some ctx =>
    { r1 with
      context := some (ctx.previous.map (fun c => pget c "text" ""),
                       ctx.next.map (fun c => pget c "text" "")) }

/-- `QueryEngine.semantic_search` (query_engine.py lines 33-76): empty
when no embedding processor is configured; any exception from the
vector search (including Qdrant's `ValueError` for a missing embedding
model, or an empty/non-existent collection error) is caught and yields
the empty list; otherwise each raw result is enriched. -/
def semantic_search (env : Env) (query : String) (limit : Nat)
    (category : Option String) : List SemResult :=
  if env.embedding_processor = false then []
  else
    match env.qdrantSearch query limit (filter_conditions category) with
    | .error _ => []
    | .ok rs => rs.map (enhance env.graph)

/-- One entry of `hybrid_search`'s `result_map` (query_engine.py lines
142-151 and 174-183).  The id is an `Option` because the graph pass
reads `rel_chunk.get('id')` without a truthiness check. -/
structure HResult where
  id : Option String
  doc_id : String
  text : String
  semantic_score : ℚ
  graph_score : ℚ
  final_score : ℚ
  document : Payload
  context : Option (List String × List String)
deriving DecidableEq

/-- The record inserted for a semantic result (query_engine.py lines
142-151). -/
def semRecord (w : ℚ) (s : SemResult) : HResult :=
  { id := some s.id, doc_id := s.doc_id, text := s.text,
    semantic_score := s.score, graph_score := 0,
    final_score := s.score * w, document := s.document, context := s.context }

/-- The score shape of a record inserted by the graph-expansion pass
(query_engine.py lines 166-183). -/
def graphShaped (w : ℚ) (e : HResult) : Prop :=
  e.semantic_score = 0 ∧ e.graph_score = 1 / 2 ∧ e.final_score = 1 / 2 * (1 - w)

instance (w : ℚ) (e : HResult) : Decidable (graphShaped w e) :=
  inferInstanceAs (Decidable (_ ∧ _ ∧ _))

/-- Python `key in result_map`. -/
def keyMem (m : List HResult) (k : Option String) : Bool :=
  m.any (fun e => e.id == k)

/-- Python `result_map[r.id] = r`: replace in place when the key exists
(dict update keeps the insertion position), else append. -/
def dictSet (m : List HResult) (r : HResult) : List HResult :=
  if keyMem m r.id then m.map (fun e => if e.id == r.id then r else e) else m ++ [r]

/-- The graph-expansion body for one related document (query_engine.py
lines 157-183): skip a falsy related-document id, skip when it has no
chunks, and insert its first chunk's record only when the chunk id is
not already a key. -/
def graphexpand (g : GraphDB) (w : ℚ) (m : List HResult) (rd : Payload) : List HResult :=
  match pgetOpt rd "id" with
  | none => m
  | some rel_doc_id =>
    if rel_doc_id = "" then m
    else
      match g.chunksOf rel_doc_id with
      | [] => m
      | rel_chunk :: _ =>
        if keyMem m (pgetOpt rel_chunk "id") then m
        else
          m ++ [{ id := pgetOpt rel_chunk "id", doc_id := rel_doc_id,
                  text := pget rel_chunk "text" "",
                  semantic_score := 0, graph_score := 1 / 2,
                  final_score := 1 / 2 * (1 - w),
                  document := rd, context := none }]

/-- Processing of one semantic result inside `hybrid_search`'s main loop
(query_engine.py lines 138-183): results with a falsy `doc_id` are
skipped entirely; otherwise the semantic record is stored and up to 3
related documents are expanded. -/
def hybridStep (g : GraphDB) (w : ℚ) (m : List HResult) (s : SemResult) : List HResult :=
  if s.doc_id = "" then m
  else (g.relatedOf s.doc_id 3).foldl (graphexpand g w) (dictSet m (semRecord w s))

/-- Descending order on `final_score` (the key of the stable
`results.sort(..., reverse=True)`). -/
def hrGE (a b : HResult) : Prop := b.final_score ≤ a.final_score

instance : DecidableRel hrGE := fun a b =>
  inferInstanceAs (Decidable (b.final_score ≤ a.final_score))

instance : IsTotal HResult hrGE :=
  ⟨fun a b => le_total b.final_score a.final_score⟩

instance : IsTrans HResult hrGE :=
  ⟨fun _ _ _ h1 h2 => le_trans h2 h1⟩

/-- Steps 2-6 of `hybrid_search` (query_engine.py lines 131-189) given
the semantic result list: empty in, empty out; otherwise fold the
result map, sort its values by `final_score` descending (stably, as
Python's sort) and truncate to `limit`. -/
def hybridMerge (g : GraphDB) (w : ℚ) (limit : Nat) (sems : List SemResult) : List HResult :=
  if sems = [] then []
  else (List.insertionSort hrGE (sems.foldl (hybridStep g w) [])).take limit

/-- `QueryEngine.hybrid_search(query, limit, category, semantic_weight)`
(query_engine.py lines 110-192): semantic search with the inflated
limit `2 × limit`, then merge. -/
def hybrid_search (env : Env) (query : String) (limit : Nat)
    (category : Option String) (w : ℚ) : List HResult :=
  hybridMerge env.graph w limit (semantic_search env query (limit * 2) category)

/-- The keys the semantic pass writes: ids of semantic results with a
truthy `doc_id`. -/
def validIds (sems : List SemResult) : List (Option String) :=
  (sems.filter (fun s => s.doc_id != "")).map (fun s => some s.id)

/-- `e` is the record the semantic pass writes for some valid semantic
result drawn from `pool`. -/
def semOf (pool : List SemResult) (w : ℚ) (e : HResult) : Prop :=
  ∃ s ∈ pool, s.doc_id ≠ "" ∧ e = semRecord w s

/-- Every result-map entry is either a semantic record or has the
graph-pass score shape. -/
def shapeOK (pool : List SemResult) (w : ℚ) (e : HResult) : Prop :=
  semOf pool w e ∨ graphShaped w e

/-- The key `k` is present in the map and every entry under it is the
semantic record of a valid semantic result from `pool` whose id is
`k`. -/
def semKeyed (pool : List SemResult) (w : ℚ) (k : Option String) (m : List HResult) : Prop :=
  keyMem m k = true ∧
  ∀ e ∈ m, e.id = k → ∃ s ∈ pool, s.doc_id ≠ "" ∧ some s.id = k ∧ e = semRecord w s

/-! ### Qdrant statistics (`QdrantManager.get_statistics`, qdrant_manager.py lines 399-437) -/

/-- Python `int(...)`: truncation toward zero. -/
def pyInt (q : ℚ) : Int := if 0 ≤ q then ⌊q⌋ else -⌊-q⌋

/-- The `doc_ids` set built from a scrolled sample: distinct truthy
`doc_id` payload values. -/
def distinctDocIds (sample : List Payload) : Nat :=
  ((sample.filterMap (fun p =>
    match pgetOpt p "doc_id" with
    | none => none
    | some d => if d = "" then none else some d)).dedup).length

/-- The statistics record returned by `get_statistics`. -/
structure QdrantStats where
  vector_count : Nat
  estimated_document_count : Int
  size_bytes : Nat
  distance : String
deriving DecidableEq

/-- `QdrantManager.get_statistics` over a collection whose points carry
the given payloads, with vector dimension `dim` and distance name
`dist`: scroll a sample of `min(1000, total)` points, extrapolate the
distinct-document count, and truncate with `int()`. -/
def qdrant_get_statistics (points : List Payload) (dim : Nat) (dist : String) : QdrantStats :=
  let total := points.length
  let sample_size := min 1000 total
  let estimated : ℚ :=
    if 0 < sample_size then
      ((distinctDocIds (points.take sample_size) : ℚ) / (sample_size : ℚ)) * (total : ℚ)
    else 0
  { vector_count := total
    estimated_document_count := pyInt estimated
    size_bytes := dim * total * 4
    distance := dist }

/-! ### Concrete fixtures used by the witnesses -/

/-- An empty graph store. -/
def gEmpty : GraphDB :=
  { chunkOf := fun _ => none, docById := fun _ => none, docByChunk := fun _ => none,
    docByMap := fun _ => none, relatedOf := fun _ _ => [], chunksOf := fun _ => [] }

/-- A related-document dict. -/
def pA : Payload := [("id", "d2"), ("category", "k")]

/-- The first chunk of the related document `d2`. -/
def chunkC2 : Payload := [("id", "c2"), ("text", "t2")]

/-- A graph store in which document `d1` is related to `d2`, whose
first chunk is `chunkC2`. -/
def gC : GraphDB :=
  { gEmpty with
    relatedOf := fun d _ => if d = "d1" then [pA] else [],
    chunksOf := fun d => if d = "d2" then [chunkC2] else [] }

/-- A semantic result for chunk `c1` of document `d1`. -/
def s1 : SemResult :=
  { id := "c1", score := 1, text := "t1", doc_id := "d1", position := 0,
    document := [], context := none }

/-- Environment: one semantic result, one related document. -/
def envC : Env :=
  { embedding_processor := true, qdrantSearch := fun _ _ _ => .ok [s1], graph := gC }

/-- The graph-pass record produced for `c2` in `envC` at weight 7/10. -/
def grC3 : HResult :=
  { id := some "c2", doc_id := "d2", text := "t2", semantic_score := 0,
    graph_score := 1 / 2, final_score := 1 / 2 * (1 - 7 / 10),
    document := pA, context := none }

/-- Environment with no embedding processor. -/
def envNoEmb : Env :=
  { embedding_processor := false, qdrantSearch := fun _ _ _ => .ok [s1], graph := gEmpty }

/-- Environment whose vector search raises. -/
def envErr : Env :=
  { embedding_processor := true, qdrantSearch := fun _ _ _ => .error "collection not found",
    graph := gEmpty }

/-- Environment whose vector search finds nothing (empty collection). -/
def envEmpty : Env :=
  { embedding_processor := true, qdrantSearch := fun _ _ _ => .ok [], graph := gEmpty }

/-- A graph store holding the single chunk `c1`. -/
def gOne : GraphDB :=
  { gEmpty with chunkOf := fun cid => if cid = "c1" then some [("id", "c1"), ("text", "t1")] else none }

/-- Two points of one document, for the statistics witness. -/
def ptsW : List Payload := [[("doc_id", "d1")], [("doc_id", "d1")]]

/-! ### Chunker lemmas -/

theorem nextStart_gt (e : Int) (ov start : Nat) : start < nextStart e ov start := by
  have h := le_max_right (e - (ov : Int)) ((start : Int) + 1)
  unfold nextStart
  omega

theorem chunkLoop_fuel_irrelevant (text : List Char) (cs ov : Nat) :
    ∀ f1 f2 start, text.length - start ≤ f1 → text.length - start ≤ f2 →
      chunkLoop text cs ov f1 start = chunkLoop text cs ov f2 start := by
  intro f1
  induction f1 with
  | zero =>
    intro f2 start h1 _
    cases f2 with
    | zero => rfl
    | succ g =>
      have hge : text.length ≤ start := by omega
      simp only [chunkLoop]
      rw [if_neg (by omega)]
  | succ f ih =>
    intro f2 start h1 h2
    cases f2 with
    | zero =>
      have hge : text.length ≤ start := by omega
      simp only [chunkLoop]
      rw [if_neg (by omega)]
    | succ g =>
      simp only [chunkLoop]
      by_cases hlt : start < text.length
      · rw [if_pos hlt, if_pos hlt]
        have hnext := nextStart_gt (computeEnd text cs start) ov start
        rw [ih g (nextStart (computeEnd text cs start) ov start) (by omega) (by omega)]
      · rw [if_neg hlt, if_neg hlt]

theorem computeEnd_of_ge (text : List Char) (cs start : Nat)
    (h : text.length ≤ start + cs) : computeEnd text cs start = (text.length : Int) := by
  simp only [computeEnd, Nat.min_eq_right h]
  simp

theorem pySlice_all (text : List Char) :
    pySlice text 0 (text.length : Int) = text := by
  unfold pySlice sliceIdx
  rw [if_neg (by omega), if_neg (by omega)]
  simp

theorem pyStrip_nil : pyStrip [] = [] := rfl

theorem dropWhile_of_forall_false {p : Char → Bool} :
    ∀ l : List Char, (∀ c ∈ l, p c = false) → l.dropWhile p = l := by
  intro l h
  cases l with
  | nil => rfl
  | cons a t =>
    rw [List.dropWhile_cons, h a (List.mem_cons_self a t)]
    simp

theorem pyStrip_no_ws (l : List Char) (h : ∀ c ∈ l, isPySpace c = false) :
    pyStrip l = l := by
  unfold pyStrip
  rw [dropWhile_of_forall_false l h]
  rw [dropWhile_of_forall_false l.reverse (fun c hc => h c (List.mem_reverse.mp hc))]
  exact List.reverse_reverse l

theorem scanFind_eq_none (text sub : List Char)
    (h : ∀ i, matchAt text sub i = false) :
    ∀ n lo, scanFind text sub lo n = none := by
  intro n
  induction n with
  | zero => intro lo; rfl
  | succ m ih =>
    intro lo
    simp only [scanFind, h lo]
    exact ih (lo + 1)

theorem pyFind_nn_eq_none (text : List Char)
    (hws : ∀ c ∈ text, isPySpace c = false) :
    ∀ a b : Int, pyFind text ['\n', '\n'] a b = none := by
  intro a b
  unfold pyFind
  apply scanFind_eq_none
  intro i
  by_contra hb
  rw [Bool.not_eq_false, matchAt, beq_iff_eq] at hb
  have hmem : '\n' ∈ text := by
    have h1 : '\n' ∈ (text.drop i).take ['\n', '\n'].length := by
      rw [hb]; exact List.mem_cons_self _ _
    exact List.drop_subset i text (List.take_subset _ _ h1)
  have := hws '\n' hmem
  simp [isPySpace] at this

theorem sentAux_none (l : List Char) (h : ∀ c ∈ l, isPySpace c = false) :
    ∀ j, sentAux l j = none := by
  induction l with
  | nil => intro j; rfl
  | cons c t ih =>
    intro j
    cases t with
    | nil => rfl
    | cons d rest =>
      have hd : isPySpace d = false := h d (by simp)
      have hcond : (isSentPunct c && isPySpace d) = false := by
        rw [hd, Bool.and_false]
      simp only [sentAux, hcond, Bool.false_eq_true, if_false]
      exact ih (fun x hx => h x (List.mem_cons_of_mem c hx)) (j + 1)

theorem sentAux_slice_none (text : List Char)
    (hws : ∀ c ∈ text, isPySpace c = false) :
    ∀ (a b : Int) (j : Nat), sentAux (pySlice text a b) j = none := fun a b j =>
  sentAux_none (pySlice text a b)
    (fun c hc => hws c (List.take_subset _ text (List.drop_subset _ _ hc))) j

theorem computeEnd_no_ws (text : List Char) (cs start : Nat)
    (hws : ∀ c ∈ text, isPySpace c = false) :
    computeEnd text cs start = ((min (start + cs) text.length : Nat) : Int) := by
  simp only [computeEnd, pyFind_nn_eq_none text hws, sentAux_slice_none text hws, ite_self]

theorem pySlice_nat (text : List Char) (s e : Nat) (hs : s ≤ text.length)
    (he : e ≤ text.length) :
    pySlice text (s : Int) (e : Int) = (text.take e).drop s := by
  unfold pySlice sliceIdx
  rw [if_neg (by omega), if_neg (by omega)]
  simp [Nat.min_eq_left hs, Nat.min_eq_left he]

theorem mem_take_drop (text : List Char) (s e i : Nat) (hs : s ≤ i) (hie : i < e)
    (he : e ≤ text.length) (hi : i < text.length) :
    text.get ⟨i, hi⟩ ∈ (text.take e).drop s := by
  rw [List.mem_iff_getElem]
  refine ⟨i - s, ?_, ?_⟩
  · rw [List.length_drop, List.length_take]
    omega
  · rw [List.getElem_drop, List.getElem_take, List.get_eq_getElem]
    congr 1
    show s + (i - s) = i
    omega

theorem length_take_drop (text : List Char) (s e : Nat) (he : e ≤ text.length) :
    ((text.take e).drop s).length = e - s := by
  rw [List.length_drop, List.length_take]
  omega

theorem chunkLoop_cov (text : List Char) (cs ov : Nat) (hcs : 0 < cs)
    (hws : ∀ c ∈ text, isPySpace c = false) :
    ∀ fuel start, text.length - start ≤ fuel → ∀ i, start ≤ i → ∀ hi : i < text.length,
      ∃ ch ∈ chunkLoop text cs ov fuel start, text.get ⟨i, hi⟩ ∈ ch := by
  intro fuel
  induction fuel with
  | zero => intro start hf i hsi hi; omega
  | succ f ih =>
    intro start hf i hsi hi
    have hstart : start < text.length := by omega
    have hE := computeEnd_no_ws text cs start hws
    set eN : Nat := min (start + cs) text.length with heN
    have heNle : eN ≤ text.length := by omega
    have heNgt : start < eN := by omega
    have hslice : pySlice text (start : Int) (computeEnd text cs start) =
        (text.take eN).drop start := by
      rw [hE]; exact pySlice_nat text start eN (by omega) heNle
    have hchunk : pyStrip (pySlice text (start : Int) (computeEnd text cs start)) =
        (text.take eN).drop start := by
      rw [hslice]
      exact pyStrip_no_ws _ (fun c hc => hws c
        (List.take_subset _ _ (List.drop_subset _ _ hc)))
    have hne : (text.take eN).drop start ≠ [] := by
      intro hnil
      have := length_take_drop text start eN heNle
      rw [hnil] at this
      simp at this
      omega
    simp only [chunkLoop, if_pos hstart, hchunk, if_neg hne]
    by_cases hcase : i < eN
    · exact ⟨(text.take eN).drop start, List.mem_cons_self _ _,
        mem_take_drop text start eN i hsi hcase heNle hi⟩
    · have hnsle : nextStart (computeEnd text cs start) ov start ≤ eN := by
        rw [hE]
        unfold nextStart
        have h1 : (eN : Int) - (ov : Int) ≤ (eN : Int) := by omega
        have h2 : ((start : Int) + 1) ≤ (eN : Int) := by omega
        have := max_le h1 h2
        omega
      have hnsgt := nextStart_gt (computeEnd text cs start) ov start
      obtain ⟨ch, hch, hmem⟩ := ih (nextStart (computeEnd text cs start) ov start)
        (by omega) i (by omega) hi
      exact ⟨ch, List.mem_cons_of_mem _ hch, hmem⟩

/-! ### Claim theorems: chunker -/

/-- C1 counterexample: the claim fails at its own worked example.  For
text of 30 characters (here 30 `'a'`s) with `chunk_size = 50` and
`overlap = 10`, `_chunk_text` returns 11 chunks, not exactly one chunk
equal to the trimmed whole text: after emitting the whole text, the
advance rule `start = max(end - overlap, start + 1) = 20 < 30` re-enters
the loop and emits the trailing suffixes. -/
theorem C1_cex :
    (chunk_text (List.replicate 30 'a') 50 10).length = 11 ∧
    ¬ (chunk_text (List.replicate 30 'a') 50 10 = [pyStrip (List.replicate 30 'a')]) := by
  decide

/-- C1 amended: empty input yields zero chunks, and for input text that
is non-empty after trimming and strictly shorter than `chunk_size`, the
FIRST returned chunk equals the trimmed whole text (when `overlap > 0`
and the text is longer than one character, further trailing-suffix
chunks follow it, so "exactly one chunk" does not hold in general). -/
theorem C1_amended (text : List Char) (cs ov : Nat) :
    chunk_text [] cs ov = [] ∧
    (text.length < cs → pyStrip text ≠ [] →
      (chunk_text text cs ov).head? = some (pyStrip text)) := by
  constructor
  · rfl
  · intro hlen hne
    have htne : text ≠ [] := by
      intro h; rw [h] at hne; exact hne pyStrip_nil
    have hpos : 0 < text.length := List.length_pos.mpr htne
    unfold chunk_text
    obtain ⟨m, hm⟩ := Nat.exists_eq_succ_of_ne_zero (by omega : text.length ≠ 0)
    rw [hm]
    simp only [chunkLoop]
    rw [if_pos (by omega)]
    have hE : computeEnd text cs 0 = (text.length : Int) :=
      computeEnd_of_ge text cs 0 (by omega)
    rw [hE]
    have hsl : pySlice text ((0 : Nat) : Int) (text.length : Int) = text := by
      simpa using pySlice_all text
    rw [hsl, if_neg hne]
    rfl

/-- C1 amended witness at a concrete input. -/
theorem C1_amended_wit :
    chunk_text [] 50 10 = [] ∧
    (chunk_text ['a', 'b'] 50 10).head? = some (pyStrip ['a', 'b']) :=
  ⟨(C1_amended ['a', 'b'] 50 10).1,
   (C1_amended ['a', 'b'] 50 10).2 (by decide) (by decide)⟩

/-- C5 confirmed: for every text and all parameter values (any
`chunk_size`, any `overlap`, including `overlap ≥ chunk_size`), the
advance rule `start = max(end - overlap, start + 1)` strictly increases
the start offset; consequently the loop's result is invariant in the
fuel bound once the fuel covers the at most `text.length - start`
remaining iterations, i.e. the chunking loop terminates for every
finite input. -/
theorem C5_progress :
    (∀ (text : List Char) (cs ov start : Nat),
      start < nextStart (computeEnd text cs start) ov start)
    ∧ ∀ (text : List Char) (cs ov f1 f2 start : Nat),
        text.length - start ≤ f1 → text.length - start ≤ f2 →
        chunkLoop text cs ov f1 start = chunkLoop text cs ov f2 start :=
  ⟨fun text cs ov start => nextStart_gt (computeEnd text cs start) ov start,
   fun text cs ov f1 f2 start h1 h2 =>
     chunkLoop_fuel_irrelevant text cs ov f1 f2 start h1 h2⟩

/-- C5 witness at concrete inputs. -/
theorem C5_progress_wit :
    0 < nextStart (computeEnd ['a'] 50 0) 10 0 ∧
    chunkLoop ['a', 'b'] 50 10 5 0 = chunkLoop ['a', 'b'] 50 10 9 0 :=
  ⟨C5_progress.1 ['a'] 50 10 0,
   C5_progress.2 ['a', 'b'] 50 10 5 9 0 (by decide) (by decide)⟩

/-- C6 counterexample: with `chunk_size = 50`, `overlap = 10` and the
non-empty text `'a'` followed by 120 spaces and `'b'`, the space
character (120 occurrences of it) appears in no emitted chunk: the
all-whitespace middle windows are stripped to empty and skipped, so
whole whitespace runs — far more than "a few characters of boundary
snap" — are absent from every chunk. -/
theorem C6_cex :
    ' ' ∈ ('a' :: (List.replicate 120 ' ' ++ ['b'])) ∧
    ∀ ch ∈ chunk_text ('a' :: (List.replicate 120 ' ' ++ ['b'])) 50 10, ' ' ∉ ch := by
  decide

/-- C6 amended: for any non-empty text containing no whitespace
characters (so that neither stripping nor boundary snapping can drop
anything), chunking with `chunk_size = 50`, `overlap = 10` covers the
text: every character of the original text appears in at least one
emitted chunk. -/
theorem C6_amended (text : List Char) (h1 : text ≠ [])
    (h2 : ∀ c ∈ text, isPySpace c = false) :
    ∀ i, ∀ hi : i < text.length,
      ∃ ch ∈ chunk_text text 50 10, text.get ⟨i, hi⟩ ∈ ch := by
  intro i hi
  exact chunkLoop_cov text 50 10 (by omega) h2 text.length 0 (by omega) i (by omega) hi

/-- C6 amended witness at a concrete input. -/
theorem C6_amended_wit :
    ∃ ch ∈ chunk_text ['a', 'b'] 50 10, (['a', 'b'] : List Char).get ⟨0, by decide⟩ ∈ ch :=
  C6_amended ['a', 'b'] (by decide) (by decide) 0 (by decide)

/-! ### Result-map lemmas -/

theorem keyMem_true_iff (m : List HResult) (k : Option String) :
    keyMem m k = true ↔ ∃ e ∈ m, e.id = k := by
  unfold keyMem
  rw [List.any_eq_true]
  constructor
  · rintro ⟨e, he, hbe⟩; exact ⟨e, he, by simpa using hbe⟩
  · rintro ⟨e, he, hbe⟩; exact ⟨e, he, by simpa using hbe⟩

theorem keyMem_false_iff (m : List HResult) (k : Option String) :
    keyMem m k = false ↔ ∀ e ∈ m, e.id ≠ k := by
  rw [← Bool.not_eq_true, keyMem_true_iff]
  push_neg
  rfl

theorem dictSet_mem (m : List HResult) (r : HResult) :
    ∀ e ∈ dictSet m r, e = r ∨ e ∈ m := by
  intro e he
  unfold dictSet at he
  by_cases h : keyMem m r.id = true
  · rw [if_pos h] at he
    obtain ⟨x, hx, hxe⟩ := List.mem_map.mp he
    by_cases hid : x.id == r.id
    · rw [if_pos hid] at hxe; exact Or.inl hxe.symm
    · rw [if_neg hid] at hxe; exact Or.inr (hxe ▸ hx)
  · rw [if_neg h] at he
    rcases List.mem_append.mp he with h1 | h1
    · exact Or.inr h1
    · exact Or.inl (List.mem_singleton.mp h1)

theorem dictSet_key (m : List HResult) (r : HResult) :
    ∀ e ∈ dictSet m r, e.id = r.id → e = r := by
  intro e he hid
  unfold dictSet at he
  by_cases h : keyMem m r.id = true
  · rw [if_pos h] at he
    obtain ⟨x, hx, hxe⟩ := List.mem_map.mp he
    by_cases hxid : x.id == r.id
    · rw [if_pos hxid] at hxe; exact hxe.symm
    · rw [if_neg hxid] at hxe
      exfalso
      rw [← hxe] at hid
      exact absurd (by simpa using hid) (by simpa using hxid)
  · rw [if_neg h] at he
    rcases List.mem_append.mp he with h1 | h1
    · exact absurd hid ((keyMem_false_iff m r.id).mp (by simpa using h) e h1)
    · exact List.mem_singleton.mp h1

theorem dictSet_keyMem_mono (m : List HResult) (r : HResult) (k : Option String)
    (h : keyMem m k = true) : keyMem (dictSet m r) k = true := by
  obtain ⟨e, he, hek⟩ := (keyMem_true_iff m k).mp h
  unfold dictSet
  by_cases hk : keyMem m r.id = true
  · rw [if_pos hk]
    apply (keyMem_true_iff _ k).mpr
    by_cases hid : e.id == r.id
    · exact ⟨r, List.mem_map.mpr ⟨e, he, by rw [if_pos hid]⟩,
        by rw [← hek]; exact (show e.id = r.id by simpa using hid).symm⟩
    · exact ⟨e, List.mem_map.mpr ⟨e, he, by rw [if_neg hid]⟩, hek⟩
  · rw [if_neg hk]
    exact (keyMem_true_iff _ k).mpr ⟨e, List.mem_append.mpr (Or.inl he), hek⟩

theorem dictSet_keyMem_self (m : List HResult) (r : HResult) :
    keyMem (dictSet m r) r.id = true := by
  unfold dictSet
  by_cases hk : keyMem m r.id = true
  · rw [if_pos hk]
    obtain ⟨e, he, hek⟩ := (keyMem_true_iff m r.id).mp hk
    exact (keyMem_true_iff _ _).mpr
      ⟨r, List.mem_map.mpr ⟨e, he, by rw [if_pos (by simpa using hek)]⟩, rfl⟩
  · rw [if_neg hk]
    exact (keyMem_true_iff _ _).mpr ⟨r, List.mem_append.mpr (Or.inr (by simp)), rfl⟩

theorem dictSet_ids_nodup (m : List HResult) (r : HResult)
    (h : (m.map (fun e => e.id)).Nodup) : ((dictSet m r).map (fun e => e.id)).Nodup := by
  unfold dictSet
  by_cases hk : keyMem m r.id = true
  · rw [if_pos hk]
    have : (m.map (fun e => if e.id == r.id then r else e)).map (fun e => e.id) =
        m.map (fun e => e.id) := by
      rw [List.map_map]
      apply List.map_congr_left
      intro e _
      by_cases hid : e.id == r.id
      · simp only [Function.comp_apply, if_pos hid]
        exact (show e.id = r.id by simpa using hid).symm
      · simp only [Function.comp_apply, if_neg hid]
    rw [this]; exact h
  · rw [if_neg hk, List.map_append]
    simp only [List.map_cons, List.map_nil]
    rw [List.nodup_append]
    refine ⟨h, List.nodup_singleton _, ?_⟩
    intro x hx
    simp only [List.mem_singleton]
    obtain ⟨e, he, hek⟩ := List.mem_map.mp hx
    intro hxr
    rw [hxr] at hek
    exact (keyMem_false_iff m r.id).mp (by simpa using hk) e he hek

theorem graphexpand_cases (g : GraphDB) (w : ℚ) (m : List HResult) (rd : Payload) :
    graphexpand g w m rd = m ∨
    ∃ gr, graphexpand g w m rd = m ++ [gr] ∧ keyMem m gr.id = false ∧ graphShaped w gr := by
  unfold graphexpand
  split
  next => exact Or.inl rfl
  next rid heq =>
    split
    next => exact Or.inl rfl
    next hrid =>
      split
      next => exact Or.inl rfl
      next c rest heq2 =>
        split
        next => exact Or.inl rfl
        next hkm => exact Or.inr ⟨_, rfl, by simpa using hkm, rfl, rfl, rfl⟩

theorem graphexpand_keyMem_mono (g : GraphDB) (w : ℚ) (m : List HResult) (rd : Payload)
    (k : Option String) (h : keyMem m k = true) : keyMem (graphexpand g w m rd) k = true := by
  rcases graphexpand_cases g w m rd with hc | ⟨gr, hc, _, _⟩
  · rw [hc]; exact h
  · rw [hc]
    obtain ⟨e, he, hek⟩ := (keyMem_true_iff m k).mp h
    exact (keyMem_true_iff _ k).mpr ⟨e, List.mem_append.mpr (Or.inl he), hek⟩

theorem graphexpand_mem (g : GraphDB) (w : ℚ) (m : List HResult) (rd : Payload) :
    ∀ e ∈ graphexpand g w m rd, e ∈ m ∨ (keyMem m e.id = false ∧ graphShaped w e) := by
  intro e he
  rcases graphexpand_cases g w m rd with hc | ⟨gr, hc, hkm, hsh⟩
  · rw [hc] at he; exact Or.inl he
  · rw [hc] at he
    rcases List.mem_append.mp he with h1 | h1
    · exact Or.inl h1
    · have : e = gr := List.mem_singleton.mp h1
      subst this
      exact Or.inr ⟨hkm, hsh⟩

theorem graphexpand_ids_nodup (g : GraphDB) (w : ℚ) (m : List HResult) (rd : Payload)
    (h : (m.map (fun e => e.id)).Nodup) :
    ((graphexpand g w m rd).map (fun e => e.id)).Nodup := by
  rcases graphexpand_cases g w m rd with hc | ⟨gr, hc, hkm, _⟩
  · rw [hc]; exact h
  · rw [hc, List.map_append]
    simp only [List.map_cons, List.map_nil]
    rw [List.nodup_append]
    refine ⟨h, List.nodup_singleton _, ?_⟩
    intro x hx
    simp only [List.mem_singleton]
    obtain ⟨e, he, hek⟩ := List.mem_map.mp hx
    intro hxr
    rw [hxr] at hek
    exact (keyMem_false_iff m gr.id).mp hkm e he hek

theorem gfold_keyMem_mono (g : GraphDB) (w : ℚ) (k : Option String) :
    ∀ (l : List Payload) (m : List HResult), keyMem m k = true →
      keyMem (l.foldl (graphexpand g w) m) k = true := by
  intro l
  induction l with
  | nil => intro m h; exact h
  | cons rd l ih =>
    intro m h
    exact ih (graphexpand g w m rd) (graphexpand_keyMem_mono g w m rd k h)

theorem gfold_mem (g : GraphDB) (w : ℚ) :
    ∀ (l : List Payload) (m : List HResult), ∀ e ∈ l.foldl (graphexpand g w) m,
      e ∈ m ∨ (keyMem m e.id = false ∧ graphShaped w e) := by
  intro l
  induction l with
  | nil => intro m e he; exact Or.inl he
  | cons rd l ih =>
    intro m e he
    rcases ih (graphexpand g w m rd) e he with h1 | ⟨h1, h2⟩
    · exact graphexpand_mem g w m rd e h1
    · refine Or.inr ⟨?_, h2⟩
      by_contra hb
      rw [Bool.not_eq_false] at hb
      rw [graphexpand_keyMem_mono g w m rd e.id hb] at h1
      cases h1

theorem gfold_ids_nodup (g : GraphDB) (w : ℚ) :
    ∀ (l : List Payload) (m : List HResult), (m.map (fun e => e.id)).Nodup →
      ((l.foldl (graphexpand g w) m).map (fun e => e.id)).Nodup := by
  intro l
  induction l with
  | nil => intro m h; exact h
  | cons rd l ih =>
    intro m h
    exact ih (graphexpand g w m rd) (graphexpand_ids_nodup g w m rd h)

theorem hybridStep_keyMem_mono (g : GraphDB) (w : ℚ) (m : List HResult) (s : SemResult)
    (k : Option String) (h : keyMem m k = true) : keyMem (hybridStep g w m s) k = true := by
  unfold hybridStep
  by_cases hv : s.doc_id = ""
  · rw [if_pos hv]; exact h
  · rw [if_neg hv]
    exact gfold_keyMem_mono g w k _ _ (dictSet_keyMem_mono m (semRecord w s) k h)

theorem hybridStep_ids_nodup (g : GraphDB) (w : ℚ) (m : List HResult) (s : SemResult)
    (h : (m.map (fun e => e.id)).Nodup) :
    ((hybridStep g w m s).map (fun e => e.id)).Nodup := by
  unfold hybridStep
  by_cases hv : s.doc_id = ""
  · rw [if_pos hv]; exact h
  · rw [if_neg hv]
    exact gfold_ids_nodup g w _ _ (dictSet_ids_nodup m (semRecord w s) h)

theorem hfold_ids_nodup (g : GraphDB) (w : ℚ) :
    ∀ (l : List SemResult) (m : List HResult), (m.map (fun e => e.id)).Nodup →
      ((l.foldl (hybridStep g w) m).map (fun e => e.id)).Nodup := by
  intro l
  induction l with
  | nil => intro m h; exact h
  | cons s l ih =>
    intro m h
    exact ih (hybridStep g w m s) (hybridStep_ids_nodup g w m s h)

theorem foldl_hybridStep_filter (g : GraphDB) (w : ℚ) :
    ∀ (l : List SemResult) (m : List HResult),
      l.foldl (hybridStep g w) m =
        (l.filter (fun s => s.doc_id != "")).foldl (hybridStep g w) m := by
  intro l
  induction l with
  | nil => intro m; rfl
  | cons s l ih =>
    intro m
    by_cases h : s.doc_id = ""
    · have hstep : hybridStep g w m s = m := by
        unfold hybridStep; rw [if_pos h]
      simp only [List.foldl_cons, List.filter_cons, hstep]
      rw [if_neg (by simp [h])]
      exact ih m
    · simp only [List.foldl_cons, List.filter_cons]
      rw [if_pos (by simp [h])]
      simp only [List.foldl_cons]
      exact ih (hybridStep g w m s)

theorem hybrid_mem_merge (env : Env) (query : String) (limit : Nat)
    (category : Option String) (w : ℚ) (r : HResult)
    (hr : r ∈ hybrid_search env query limit category w) :
    r ∈ (semantic_search env query (limit * 2) category).foldl (hybridStep env.graph w) [] := by
  unfold hybrid_search hybridMerge at hr
  by_cases h : semantic_search env query (limit * 2) category = []
  · rw [if_pos h] at hr; cases hr
  · rw [if_neg h] at hr
    exact (List.perm_insertionSort hrGE _).mem_iff.mp (List.take_subset limit _ hr)

/-! ### Claim theorems: hybrid search -/

/-- C2 confirmed: for every environment, query, limit, category filter
and semantic weight, `hybrid_search` returns at most `limit` results,
ordered by `final_score` in non-increasing order (`hrGE r1 r2` is
`r2.final_score ≤ r1.final_score`, so `Pairwise hrGE` says every
earlier result's final score is ≥ every later one's). -/
theorem C2_sorted_bounded (env : Env) (query : String) (limit : Nat)
    (category : Option String) (w : ℚ) :
    (hybrid_search env query limit category w).length ≤ limit ∧
    List.Pairwise hrGE (hybrid_search env query limit category w) := by
  unfold hybrid_search hybridMerge
  by_cases h : semantic_search env query (limit * 2) category = []
  · rw [if_pos h]
    exact ⟨by simp, List.Pairwise.nil⟩
  · rw [if_neg h]
    constructor
    · rw [List.length_take]
      exact min_le_left _ _
    · exact (List.sorted_insertionSort hrGE _).sublist (List.take_sublist _ _)

/-- C10 confirmed: `hybrid_search` computes exactly what it would
compute from only the semantic results whose `doc_id` is present and
non-empty — a semantic result with a falsy `doc_id` is never inserted
into the result map, contributes no graph expansion, and can never
appear in the output, regardless of its similarity score. -/
theorem C10_invalid_dropped (env : Env) (query : String) (limit : Nat)
    (category : Option String) (w : ℚ) :
    hybrid_search env query limit category w =
      hybridMerge env.graph w limit
        ((semantic_search env query (limit * 2) category).filter
          (fun s => s.doc_id != "")) := by
  unfold hybrid_search hybridMerge
  by_cases h1 : semantic_search env query (limit * 2) category = []
  · rw [if_pos h1, h1]
    simp
  · rw [if_neg h1]
    by_cases h2 : (semantic_search env query (limit * 2) category).filter
        (fun s => s.doc_id != "") = []
    · rw [if_pos h2, foldl_hybridStep_filter, h2]
      simp
    · rw [if_neg h2, foldl_hybridStep_filter]

theorem shape_step (g : GraphDB) (w : ℚ) (pool : List SemResult) (m : List HResult)
    (s : SemResult) (hs : s ∈ pool) (hm : ∀ e ∈ m, shapeOK pool w e) :
    ∀ e ∈ hybridStep g w m s, shapeOK pool w e := by
  intro e he
  unfold hybridStep at he
  by_cases hv : s.doc_id = ""
  · rw [if_pos hv] at he; exact hm e he
  · rw [if_neg hv] at he
    rcases gfold_mem g w _ _ e he with h1 | ⟨_, h2⟩
    · rcases dictSet_mem m (semRecord w s) e h1 with h3 | h3
      · exact Or.inl ⟨s, hs, hv, h3⟩
      · exact hm e h3
    · exact Or.inr h2

theorem shape_fold (g : GraphDB) (w : ℚ) (pool : List SemResult) :
    ∀ (l : List SemResult) (m : List HResult), (∀ s ∈ l, s ∈ pool) →
      (∀ e ∈ m, shapeOK pool w e) →
      ∀ e ∈ l.foldl (hybridStep g w) m, shapeOK pool w e := by
  intro l
  induction l with
  | nil => intro m _ hm e he; exact hm e he
  | cons s l ih =>
    intro m hsub hm e he
    exact ih (hybridStep g w m s) (fun x hx => hsub x (List.mem_cons_of_mem s hx))
      (shape_step g w pool m s (hsub s (List.mem_cons_self s l)) hm) e he

theorem semKeyed_gfold (g : GraphDB) (w : ℚ) (pool : List SemResult) (k : Option String) :
    ∀ (l : List Payload) (m : List HResult), semKeyed pool w k m →
      semKeyed pool w k (l.foldl (graphexpand g w) m) := by
  intro l m ⟨hk, hall⟩
  refine ⟨gfold_keyMem_mono g w k l m hk, ?_⟩
  intro e he hek
  rcases gfold_mem g w l m e he with h1 | ⟨h1, _⟩
  · exact hall e h1 hek
  · rw [hek] at h1
    rw [h1] at hk
    cases hk

theorem semKeyed_step_preserve (g : GraphDB) (w : ℚ) (pool : List SemResult)
    (k : Option String) (m : List HResult) (s : SemResult) (hs : s ∈ pool)
    (h : semKeyed pool w k m) : semKeyed pool w k (hybridStep g w m s) := by
  obtain ⟨hk, hall⟩ := h
  unfold hybridStep
  by_cases hv : s.doc_id = ""
  · rw [if_pos hv]; exact ⟨hk, hall⟩
  · rw [if_neg hv]
    apply semKeyed_gfold
    refine ⟨dictSet_keyMem_mono m (semRecord w s) k hk, ?_⟩
    intro e he hek
    rcases dictSet_mem m (semRecord w s) e he with h1 | h1
    · refine ⟨s, hs, hv, ?_, h1⟩
      rw [← hek, h1]
      rfl
    · exact hall e h1 hek

theorem semKeyed_step_establish (g : GraphDB) (w : ℚ) (pool : List SemResult)
    (m : List HResult) (s0 : SemResult) (hs0 : s0 ∈ pool) (hv : s0.doc_id ≠ "") :
    semKeyed pool w (some s0.id) (hybridStep g w m s0) := by
  unfold hybridStep
  rw [if_neg hv]
  apply semKeyed_gfold
  refine ⟨dictSet_keyMem_self m (semRecord w s0), ?_⟩
  intro e he hek
  have : e = semRecord w s0 := dictSet_key m (semRecord w s0) e he hek
  exact ⟨s0, hs0, hv, rfl, this⟩

theorem semKeyed_fold (g : GraphDB) (w : ℚ) (pool : List SemResult) (k : Option String) :
    ∀ (l : List SemResult) (m : List HResult), (∀ s ∈ l, s ∈ pool) →
      semKeyed pool w k m → semKeyed pool w k (l.foldl (hybridStep g w) m) := by
  intro l
  induction l with
  | nil => intro m _ h; exact h
  | cons s l ih =>
    intro m hsub h
    exact ih (hybridStep g w m s) (fun x hx => hsub x (List.mem_cons_of_mem s hx))
      (semKeyed_step_preserve g w pool k m s (hsub s (List.mem_cons_self s l)) h)

theorem hybrid_semwins (env : Env) (query : String) (limit : Nat)
    (category : Option String) (w : ℚ) (s0 : SemResult)
    (hs0 : s0 ∈ semantic_search env query (limit * 2) category) (hv : s0.doc_id ≠ "")
    (r : HResult) (hr : r ∈ hybrid_search env query limit category w)
    (hid : r.id = some s0.id) :
    ∃ s ∈ semantic_search env query (limit * 2) category,
      s.doc_id ≠ "" ∧ some s.id = r.id ∧ r = semRecord w s := by
  obtain ⟨u, v, huv⟩ := List.append_of_mem hs0
  have hrM := hybrid_mem_merge env query limit category w r hr
  rw [huv, List.foldl_append, List.foldl_cons] at hrM
  have hkey : semKeyed (semantic_search env query (limit * 2) category) w (some s0.id)
      (v.foldl (hybridStep env.graph w)
        (hybridStep env.graph w (u.foldl (hybridStep env.graph w) []) s0)) := by
    apply semKeyed_fold
    · intro x hx
      rw [huv]
      exact List.mem_append.mpr (Or.inr (List.mem_cons_of_mem s0 hx))
    · exact semKeyed_step_establish env.graph w _ _ s0 hs0 hv
  obtain ⟨s, hs, hv2, hsid, he⟩ := hkey.2 r hrM hid
  exact ⟨s, hs, hv2, by rw [hid]; exact hsid, he⟩

/-- C3 confirmed: in every `hybrid_search` result list, a result whose
chunk id was written by the semantic pass (its id is among the valid
semantic result ids) has `graph_score = 0` and
`final_score = semantic_score × semantic_weight`, and a result that
entered only via the graph-expansion pass has `semantic_score = 0`,
`graph_score = 1/2` and `final_score = 1/2 × (1 − semantic_weight)`. -/
theorem C3_path_scores (env : Env) (query : String) (limit : Nat)
    (category : Option String) (w : ℚ) :
    ∀ r ∈ hybrid_search env query limit category w,
      (r.id ∈ validIds (semantic_search env query (limit * 2) category) →
        r.graph_score = 0 ∧ r.final_score = r.semantic_score * w) ∧
      (r.id ∉ validIds (semantic_search env query (limit * 2) category) →
        r.semantic_score = 0 ∧ r.graph_score = 1 / 2 ∧
          r.final_score = 1 / 2 * (1 - w)) := by
  intro r hr
  constructor
  · intro hid
    obtain ⟨s0, hs0f, hs0id⟩ := List.mem_map.mp hid
    obtain ⟨hs0, hs0v⟩ := List.mem_filter.mp hs0f
    obtain ⟨s, _, _, _, he⟩ := hybrid_semwins env query limit category w s0 hs0
      (by simpa using hs0v) r hr hs0id.symm
    rw [he]
    exact ⟨rfl, rfl⟩
  · intro hnid
    have hshape := shape_fold env.graph w
      (semantic_search env query (limit * 2) category)
      (semantic_search env query (limit * 2) category) []
      (fun s hs => hs) (by intro e he; cases he) r
      (hybrid_mem_merge env query limit category w r hr)
    rcases hshape with ⟨s, hs, hv, he⟩ | hgr
    · exfalso
      apply hnid
      apply List.mem_map.mpr
      exact ⟨s, List.mem_filter.mpr ⟨hs, by simpa using hv⟩, by rw [he]; rfl⟩
    · exact hgr

theorem hybrid_envC_eval :
    hybrid_search envC "q" 5 none (7 / 10) = [semRecord (7 / 10) s1, grC3] := by
  norm_num [hybrid_search, hybridMerge, semantic_search, envC, gC, gEmpty, enhance,
    neo4j_get_chunk_context, filter_conditions, hybridStep, dictSet, keyMem, graphexpand,
    pgetOpt, pget, s1, pA, chunkC2, semRecord, grC3, List.insertionSort,
    List.orderedInsert, hrGE, List.find?]
  decide

/-- C3 witness: in the concrete environment `envC` the graph-expansion
record for chunk `c2` carries exactly the graph-pass scores. -/
theorem C3_path_scores_wit :
    grC3.semantic_score = 0 ∧ grC3.graph_score = 1 / 2 ∧
      grC3.final_score = 1 / 2 * (1 - 7 / 10) :=
  (C3_path_scores envC "q" 5 none (7 / 10) grC3
    (by rw [hybrid_envC_eval]; simp)).2 (by decide)

/-- C4 confirmed: every `hybrid_search` result list has pairwise
distinct chunk ids, and a chunk id written by the semantic pass is
never overwritten or re-scored by the graph-expansion pass: the
returned record under such an id is exactly the record assigned at
semantic insertion (`semRecord`), down to all of its score fields. -/
theorem C4_nodup_semwins (env : Env) (query : String) (limit : Nat)
    (category : Option String) (w : ℚ) :
    ((hybrid_search env query limit category w).map (fun r => r.id)).Nodup ∧
    ∀ r ∈ hybrid_search env query limit category w,
      ∀ s0 ∈ semantic_search env query (limit * 2) category,
        s0.doc_id ≠ "" → r.id = some s0.id →
        ∃ s ∈ semantic_search env query (limit * 2) category,
          s.doc_id ≠ "" ∧ some s.id = r.id ∧ r = semRecord w s := by
  constructor
  · unfold hybrid_search hybridMerge
    by_cases h : semantic_search env query (limit * 2) category = []
    · rw [if_pos h]; simp
    · rw [if_neg h]
      have h1 := hfold_ids_nodup env.graph w
        (semantic_search env query (limit * 2) category) [] (by simp)
      have h2 : ((List.insertionSort hrGE
          ((semantic_search env query (limit * 2) category).foldl
            (hybridStep env.graph w) [])).map (fun e => e.id)).Nodup :=
        List.Perm.nodup ((List.perm_insertionSort hrGE _).map (fun e => e.id)).symm h1
      rw [List.map_take]
      exact List.Sublist.nodup (List.take_sublist _ _) h2
  · intro r hr s0 hs0 hv hid
    exact hybrid_semwins env query limit category w s0 hs0 hv r hr hid

/-- C4 witness: in `envC`, the record returned under the semantic id
`c1` is exactly the semantic record of a valid semantic result. -/
theorem C4_nodup_semwins_wit :
    ∃ s ∈ semantic_search envC "q" (5 * 2) none,
      s.doc_id ≠ "" ∧ some s.id = (semRecord (7 / 10) s1).id ∧
        semRecord (7 / 10) s1 = semRecord (7 / 10) s :=
  (C4_nodup_semwins envC "q" 5 none (7 / 10)).2 (semRecord (7 / 10) s1)
    (by rw [hybrid_envC_eval]; simp) s1 (by decide) (by decide) rfl

/-! ### Claim theorems: context expansion, semantic search, statistics -/

/-- C7 is a code bug: the claim (window 0 returns the chunk itself as a
populated center with empty previous/next) describes the query's intent,
but the code never achieves it.  The Cypher of `get_chunk_context` is a
plain string whose variable-length bound is the literal text
`context_size` in braces — invalid Cypher on every Neo4j version — so
the query always raises, `get_chunk_context` returns `None` for every
input, and `expand_context` returns the empty `{}` outcome even for a
chunk id that exists in the graph store (here `c1` in `gOne` with
window 0): the center is never populated. -/
theorem C7_always_empty :
    (∀ (g : GraphDB) (cid : String) (k : Nat),
      neo4j_get_chunk_context g cid k = none ∧ expand_context g cid k = none) ∧
    gOne.chunkOf "c1" = some [("id", "c1"), ("text", "t1")] ∧
    expand_context gOne "c1" 0 = none :=
  ⟨fun _ _ _ => ⟨rfl, rfl⟩, by decide, rfl⟩

/-- C8 confirmed: `semantic_search` returns the empty list — rather
than propagating an exception — when no embedding processor is
configured, when the vector search raises (missing embedding model,
empty or non-existent collection), and when the vector search finds
nothing; in all cases the caller receives a well-formed (possibly
empty) list. -/
theorem C8_semantic_empty (env : Env) (query : String) (limit : Nat)
    (category : Option String) :
    (env.embedding_processor = false → semantic_search env query limit category = []) ∧
    (∀ err, env.qdrantSearch query limit (filter_conditions category) = .error err →
      semantic_search env query limit category = []) ∧
    (env.qdrantSearch query limit (filter_conditions category) = .ok [] →
      semantic_search env query limit category = []) := by
  refine ⟨?_, ?_, ?_⟩
  · intro h
    simp [semantic_search, h]
  · intro err herr
    by_cases hep : env.embedding_processor = false
    · simp [semantic_search, hep]
    · simp [semantic_search, hep, herr]
  · intro hok
    by_cases hep : env.embedding_processor = false
    · simp [semantic_search, hep]
    · simp [semantic_search, hep, hok]

/-- C8 witness: the three degraded environments each yield the empty
result list. -/
theorem C8_semantic_empty_wit :
    semantic_search envNoEmb "q" 5 none = [] ∧
    semantic_search envErr "q" 5 none = [] ∧
    semantic_search envEmpty "q" 5 none = [] :=
  ⟨(C8_semantic_empty envNoEmb "q" 5 none).1 rfl,
   (C8_semantic_empty envErr "q" 5 none).2.1 "collection not found" rfl,
   (C8_semantic_empty envEmpty "q" 5 none).2.2 rfl⟩

/-- C9 confirmed: the vector-store statistics report an estimated
distinct-document count equal to `int((distinct doc ids in the scrolled
sample of size min(1000, total)) / sample_size × total)`, and the
estimate is 0 for an empty collection. -/
theorem C9_estimate (points : List Payload) (dim : Nat) (dist : String) :
    (qdrant_get_statistics points dim dist).estimated_document_count =
      pyInt (((distinctDocIds (points.take (min 1000 points.length)) : ℚ) /
        ((min 1000 points.length : Nat) : ℚ)) * (points.length : ℚ)) ∧
    (points.length = 0 →
      (qdrant_get_statistics points dim dist).estimated_document_count = 0) := by
  constructor
  · by_cases h : 0 < min 1000 points.length
    · simp only [qdrant_get_statistics, if_pos h]
    · have h0 : points.length = 0 := by omega
      have hpts : points = [] := List.length_eq_zero.mp h0
      subst hpts
      simp [qdrant_get_statistics, distinctDocIds, pyInt]
  · intro h0
    have hpts : points = [] := List.length_eq_zero.mp h0
    subst hpts
    simp [qdrant_get_statistics, pyInt]

/-- C9 witness: two points of one document give the exact formula
value, and the empty collection gives 0. -/
theorem C9_estimate_wit :
    (qdrant_get_statistics ptsW 3 "Cosine").estimated_document_count =
      pyInt (((distinctDocIds (ptsW.take (min 1000 ptsW.length)) : ℚ) /
        ((min 1000 ptsW.length : Nat) : ℚ)) * (ptsW.length : ℚ)) ∧
    (qdrant_get_statistics [] 3 "Cosine").estimated_document_count = 0 :=
  ⟨(C9_estimate ptsW 3 "Cosine").1, (C9_estimate [] 3 "Cosine").2 rfl⟩

